import Mathlib

/-!
# Verification of the price-dashboard data-cleaning pipeline

Shallow embedding of the data-cleaning core of the repository
(`app.py`, `utils.py`): strings are `List Char`, finite Python floats
are modelled as exact rationals `ℚ`, pandas tables are lists of
records, and fallible steps return `Option`/`Except`.

Python's builtin `float(str)` conversion is modelled at two levels:
`pyFloat?` covers the grammar of finite decimal literals (optional
surrounding whitespace, optional sign, digits with at most one dot,
optional exponent), and `pyFloatExt?` extends it with everything else
CPython accepts — the case-insensitive words `nan`/`inf`/`infinity` and
underscore digit-group separators — returning a `PyFloat` (finite
value, NaN, or signed infinity), with Python's non-reflexive float `==`
modelled by `pyFloatBeq`.  Python's `str(float)` rendering is modelled
by `pyStrOfFloat` (the exact decimal expansion, no trailing zeros, at
least one fractional digit, matching CPython's rendering of the values
in range) and by `pyStrOfPyFloat` on the extended values.

`pandas.sort_values` uses `kind='quicksort'` by default, which is not
stable, so the sort at `app.py` line 175 is modelled relationally
(`IsSortByDate`): every date-ascending permutation of the input is an
admissible output, and snapshot properties are quantified over all of
them.
-/

namespace PriceTower

/-- Convert a Lean string literal to the `List Char` representation used
throughout this development. -/
def cs (s : String) : List Char := s.data

/-- Whitespace characters removed by Python's `str.strip()`. -/
def wsChar (c : Char) : Bool :=
  c = ' ' ∨ c = '\t' ∨ c = '\n' ∨ c = '\r' ∨ c = '\x0b' ∨ c = '\x0c'

/-- Python `str.strip()`: drop leading and trailing whitespace. -/
def pyStrip (s : List Char) : List Char :=
  ((s.dropWhile wsChar).reverse.dropWhile wsChar).reverse

/-- Python `str.replace(c, '')` for a single character: remove every
occurrence of `c`. -/
def removeChar (c : Char) (s : List Char) : List Char :=
  s.filter (fun a => a ≠ c)

/-- Python `str.replace(c, d)` for single characters. -/
def replaceChar (c d : Char) (s : List Char) : List Char :=
  s.map (fun a => if a = c then d else a)

/-- Python `str.find(c)`: index of the first occurrence of `c`, `-1` when
absent. -/
def pyFind (c : Char) : List Char → Int
  | [] => -1
  | a :: s => if a = c then 0 else (if pyFind c s = -1 then -1 else pyFind c s + 1)

/-- Numeric value of a decimal digit character. -/
def charDig (c : Char) : Nat := c.toNat - 48

/-- Decimal digit character for a value `< 10`. -/
def digChar : Nat → Char
  | 0 => '0' | 1 => '1' | 2 => '2' | 3 => '3' | 4 => '4'
  | 5 => '5' | 6 => '6' | 7 => '7' | 8 => '8' | _ => '9'

/-- Value of a big-endian list of decimal digit characters. -/
def digitsVal (l : List Char) : Nat :=
  l.foldl (fun a c => 10 * a + charDig c) 0

/-- Split an optional leading sign (Python float literals accept `+`/`-`).
Returns `(negative, rest)`. -/
def splitSign : List Char → Bool × List Char
  | [] => (false, [])
  | a :: s =>
    if a = '-' then (true, s)
    else if a = '+' then (false, s)
    else (false, a :: s)

/-- Longest prefix of decimal digits, and the remainder. -/
def takeDigits (s : List Char) : List Char × List Char :=
  (s.takeWhile Char.isDigit, s.dropWhile Char.isDigit)

/-- Assemble the rational value of a parsed float literal:
sign, integer digits, fractional digits, exponent.  (Stated with `mkRat`
so that concrete instances reduce inside the kernel; `mkVal_eq` below
gives the arithmetic reading.) -/
def mkVal (neg : Bool) (ip fp : List Char) (e : Int) : ℚ :=
  let L := fp.length
  let n : Int := (digitsVal ip * 10 ^ L + digitsVal fp : Nat)
  let n' : Int := if neg then -n else n
  if 0 ≤ e then mkRat (n' * 10 ^ e.toNat) (10 ^ L) else mkRat n' (10 ^ (L + e.natAbs))

/-- Parse the optional exponent suffix of a float literal and finish. -/
def parseExpPart (neg : Bool) (ip fp : List Char) : List Char → Option ℚ
  | [] => some (mkVal neg ip fp 0)
  | c :: r =>
    if c = 'e' ∨ c = 'E' then
      let p := splitSign r
      let d := takeDigits p.2
      if d.1 = [] ∨ d.2 ≠ [] then none
      else some (mkVal neg ip fp
        (if p.1 then -(digitsVal d.1 : Int) else (digitsVal d.1 : Int)))
    else none

/-- Model of Python's builtin `float` conversion restricted to finite
decimal literals: optional whitespace, optional sign, digits with at
most one `.` (at least one digit overall), optional exponent.  `none`
models a raised `ValueError`.  The full conversion — which also accepts
the words `nan`/`inf`/`infinity` and underscore digit separators — is
`pyFloatExt?` below; the restricted form is used in the
separator-rule comparison, where the same conversion runs on both
sides. -/
def pyFloat? (s : List Char) : Option ℚ :=
  let t := pyStrip s
  let p := splitSign t
  let d := takeDigits p.2
  match d.2 with
  | c :: r2 =>
    if c = '.' then
      let f := takeDigits r2
      if d.1 = [] ∧ f.1 = [] then none
      else parseExpPart p.1 d.1 f.1 f.2
    else if d.1 = [] then none else parseExpPart p.1 d.1 [] d.2
  | [] => if d.1 = [] then none else parseExpPart p.1 d.1 [] []

/-- A cell value as seen by `clean_currency`: `null` models `None`/`NaN`
(for which `pd.isna` is true), `num` models an `int`/`float` already, and
`str` a string cell. -/
inductive CellValue
  | null
  | num (q : ℚ)
  | str (s : List Char)
deriving DecidableEq

/-- `clean_currency` (`app.py` lines 24–34, identically `utils.py`
lines 12–31): missing/blank → `0.0`; numeric → itself; otherwise remove
`€` and `$`, strip whitespace, resolve the `,`/`.` convention, and
convert with `float`, returning `0.0` on failure. -/
def clean_currency : CellValue → ℚ
  | .null => 0
  | .num q => q
  | .str s =>
    if pyStrip s = [] then 0
    else
      let t := pyStrip (removeChar '$' (removeChar '€' s))
      let r :=
        if t.contains ',' ∧ t.contains '.' then
          if pyFind '.' t < pyFind ',' t then
            pyFloat? (replaceChar ',' '.' (removeChar '.' t))
          else
            pyFloat? (removeChar ',' t)
        else if t.contains ',' then
          pyFloat? (replaceChar ',' '.' t)
        else
          pyFloat? t
      r.getD 0

/-- Modelled from the spec (§4.2): the separator-disambiguation rule of
`parse_currency` applied to an already symbol-stripped string — if both
`,` and `.` occur and `.` comes first, remove the dots and make `,` the
decimal point; otherwise with both present remove the commas; a lone `,`
becomes the decimal point; a lone `.` is kept; a parse failure yields
`0.0`. -/
def ruleSpecParse (t : List Char) : ℚ :=
  if t.contains ',' ∧ t.contains '.' then
    if pyFind '.' t < pyFind ',' t then
      (pyFloat? (replaceChar ',' '.' (removeChar '.' t))).getD 0
    else
      (pyFloat? (removeChar ',' t)).getD 0
  else if t.contains ',' then
    (pyFloat? (replaceChar ',' '.' t)).getD 0
  else
    (pyFloat? t).getD 0

/-! ## Python `str(float)` rendering -/

/-- Big-endian decimal digit characters of a natural number (`"0"` for
zero). -/
def natChars (n : Nat) : List Char :=
  if n = 0 then ['0'] else ((Nat.digits 10 n).map digChar).reverse

/-- Remove trailing `'0'` characters. -/
def stripZerosR (l : List Char) : List Char :=
  (l.reverse.dropWhile (fun c => c = '0')).reverse

/-- Left-pad with `'0'` up to length `k`. -/
def padZeros (k : Nat) (l : List Char) : List Char :=
  List.replicate (k - l.length) '0' ++ l

/-- Model of Python's `str` on a (finite, exactly represented) float:
optional minus sign, the integer part, `'.'`, and the exact fractional
digits without trailing zeros (`"0"` when the value is integral). -/
def pyStrOfFloat (q : ℚ) : List Char :=
  let k := q.den
  let z := (|q| * 10 ^ k).num.toNat
  let ipart := natChars (z / 10 ^ k)
  let fdigs := stripZerosR (padZeros k (natChars (z % 10 ^ k)))
  (if q < 0 then ['-'] else []) ++ ipart ++ '.' :: (if fdigs = [] then ['0'] else fdigs)

/-- A rational with a finite decimal expansion — the exact values Python
float literals denote in the model.  Every result of `clean_currency` is
decimal. -/
def DecimalRat (q : ℚ) : Prop := ∃ (k : Nat) (z : Int), q * 10 ^ k = (z : ℚ)

/-! ## The extended float model

CPython's `float` conversion also accepts the words `nan`, `inf` and
`infinity` (case-insensitive, optionally signed) and underscore digit
separators between digits, and `==` on the resulting values is not
reflexive at NaN.  `PyFloat` and the functions below model that full
behavior; the idempotence analysis of the currency parser runs over this
model. -/

/-- A Python float value: a finite value (exact rational in the model),
NaN, or a signed infinity. -/
inductive PyFloat
  | fin (q : ℚ)
  | nan
  | inf (neg : Bool)
deriving DecidableEq

/-- Python `==` between floats: NaN compares unequal to everything,
including itself. -/
def pyFloatBeq : PyFloat → PyFloat → Bool
  | .fin a, .fin b => a == b
  | .inf a, .inf b => a == b
  | _, _ => false

/-- Longest prefix of decimal digits allowing CPython's underscore
separators (an underscore must sit between two digits); returns the
digits with underscores removed, and the remainder.  A misplaced
underscore is left in the remainder, which makes the whole literal
invalid downstream, as in CPython. -/
def takeDigitsU : List Char → List Char × List Char
  | [] => ([], [])
  | [c] => if c.isDigit then ([c], []) else ([], [c])
  | c :: b :: r2 =>
    if c.isDigit then
      if b = '_' ∧ (r2.head?.getD ' ').isDigit then
        ((c :: (takeDigitsU r2).1), (takeDigitsU r2).2)
      else if b = '_' then ([c], b :: r2)
      else ((c :: (takeDigitsU (b :: r2)).1), (takeDigitsU (b :: r2)).2)
    else ([], c :: b :: r2)

/-- Exponent suffix of a float literal, with underscore-aware digit
runs. -/
def parseExpPartU (neg : Bool) (ip fp : List Char) : List Char → Option ℚ
  | [] => some (mkVal neg ip fp 0)
  | c :: r =>
    if c = 'e' ∨ c = 'E' then
      let p := splitSign r
      let d := takeDigitsU p.2
      if d.1 = [] ∨ d.2 ≠ [] then none
      else some (mkVal neg ip fp
        (if p.1 then -(digitsVal d.1 : Int) else (digitsVal d.1 : Int)))
    else none

/-- Full model of CPython's `float` conversion: optional whitespace and
sign, then either a decimal literal (with underscore separators and
optional exponent) or one of the words `nan` / `inf` / `infinity`
(case-insensitive).  `none` models a raised `ValueError`. -/
def pyFloatExt? (s : List Char) : Option PyFloat :=
  let t := pyStrip s
  let p := splitSign t
  let d := takeDigitsU p.2
  match d.2 with
  | c :: r2 =>
    if c = '.' then
      let f := takeDigitsU r2
      if d.1 = [] ∧ f.1 = [] then none
      else (parseExpPartU p.1 d.1 f.1 f.2).map .fin
    else if d.1 = [] then
      let w := p.2.map Char.toLower
      if w = cs "nan" then some .nan
      else if w = cs "inf" ∨ w = cs "infinity" then some (.inf p.1)
      else none
    else (parseExpPartU p.1 d.1 [] d.2).map .fin
  | [] => if d.1 = [] then none else (parseExpPartU p.1 d.1 [] []).map .fin

/-- The string branch of `clean_currency` (`app.py` lines 24–34) over
the full float model: same symbol removal, stripping and separator
logic, with the conversion done by `pyFloatExt?` so that NaN and
infinite results are represented faithfully. -/
def clean_currency_str (s : List Char) : PyFloat :=
  if pyStrip s = [] then .fin 0
  else
    let t := pyStrip (removeChar '$' (removeChar '€' s))
    let r :=
      if t.contains ',' ∧ t.contains '.' then
        if pyFind '.' t < pyFind ',' t then
          pyFloatExt? (replaceChar ',' '.' (removeChar '.' t))
        else
          pyFloatExt? (removeChar ',' t)
      else if t.contains ',' then
        pyFloatExt? (replaceChar ',' '.' t)
      else
        pyFloatExt? t
    r.getD (.fin 0)

/-- Python `str` on a float value: `"nan"`, `"inf"`/`"-inf"`, or the
decimal rendering of a finite value. -/
def pyStrOfPyFloat : PyFloat → List Char
  | .fin q => pyStrOfFloat q
  | .nan => cs "nan"
  | .inf b => if b then cs "-inf" else cs "inf"

/-! ## Temporal snapshot reduction (`app.py` line 175) -/

/-- One row of the cleaned period table `df_period`: the trimmed sku, the
normalized observation date `Data_dt` (an abstract day number), and the
price payload that distinguishes rows. -/
structure SRow where
  sku : List Char
  date : Int
  price : ℚ
deriving DecidableEq

/-- Model of `drop_duplicates('Sku', keep='last')`: keep, in order, only
each row that has no later row with the same sku. -/
def dropDupKeepLast : List SRow → List SRow
  | [] => []
  | x :: xs =>
    if xs.any (fun y => y.sku == x.sku) then dropDupKeepLast xs
    else x :: dropDupKeepLast xs

/-- Model of `df_period.sort_values('Data_dt')`: pandas' default sort
(`kind='quicksort'`) guarantees only an output that is a permutation of
the input, ascending in the key; the relative order of rows with equal
dates is implementation-defined, so the sort is modelled as a relation
on lists rather than a function. -/
def IsSortByDate (l l' : List SRow) : Prop :=
  List.Perm l' l ∧ l'.Sorted (fun a b => a.date ≤ b.date)

/-- Model of `app.py` line 175, `df_latest =
df_period.sort_values('Data_dt').drop_duplicates('Sku', keep='last')`:
`res` is a possible snapshot of `l` — the keep-last reduction of some
admissible sort of `l`. -/
def IsDfLatest (l res : List SRow) : Prop :=
  ∃ l', IsSortByDate l l' ∧ res = dropDupKeepLast l'

/-! ## Price/revenue merge (`app.py` lines 82–87) -/

/-- A cleaned price-sheet row entering the merge. -/
structure PriceRow where
  sku : List Char
  pdate : Int
  price : ℚ
deriving DecidableEq

/-- A cleaned revenue-sheet row; `rdate` is the optional date column the
revenue source may carry. -/
structure RevRow where
  sku : List Char
  rdate : Option Int
  entrate : ℚ
  vendite : ℚ
deriving DecidableEq

/-- A merged output row (after `fillna(0)`). -/
structure MergedRow where
  sku : List Char
  pdate : Int
  price : ℚ
  entrate : ℚ
  vendite : ℚ
deriving DecidableEq

/-- The rows a single price row produces in
`df_p.merge(df_r, on='Sku', how='left').fillna(0)`: one copy per
sku-matching revenue row, or a single zero-filled copy when none
matches. -/
def matchRevRows (p : PriceRow) (R : List RevRow) : List MergedRow :=
  match R.filter (fun x => x.sku == p.sku) with
  | [] => [⟨p.sku, p.pdate, p.price, 0, 0⟩]
  | ms => ms.map (fun m => ⟨p.sku, p.pdate, p.price, m.entrate, m.vendite⟩)

/-- Model of `app.py` line 87: left merge of the price table with the
revenue table on the key `Sku` alone, then `fillna(0)`. -/
def merge_on_sku (P : List PriceRow) (R : List RevRow) : List MergedRow :=
  (P.map (fun p => matchRevRows p R)).flatten

/-- Modelled from the spec (§4.3 step 1): the same-day merge the spec
describes for a revenue source that carries dates — join key `sku` plus
`observation_date`, unmatched price rows zero-filled. -/
def specMergeSkuDate (P : List PriceRow) (R : List RevRow) : List MergedRow :=
  (P.map (fun p =>
    match R.filter (fun x => x.sku == p.sku && x.rdate == some p.pdate) with
    | [] => [⟨p.sku, p.pdate, p.price, 0, 0⟩]
    | ms => ms.map (fun m => ⟨p.sku, p.pdate, p.price, m.entrate, m.vendite⟩))).flatten

/-! ## Date handling (`app.py` lines 89–104) -/

/-- A timestamp: calendar day plus seconds within the day. -/
structure Stamp where
  year : Nat
  month : Nat
  day : Nat
  secs : Nat
deriving DecidableEq

/-- `dt.normalize()`: strip the time of day. -/
def normalizeStamp (t : Stamp) : Stamp := { t with secs := 0 }

/-- Length of a month, with leap years. -/
def daysInMonth (y m : Nat) : Nat :=
  if m = 2 then (if y % 4 = 0 ∧ (y % 100 ≠ 0 ∨ y % 400 = 0) then 29 else 28)
  else if m = 4 ∨ m = 6 ∨ m = 9 ∨ m = 11 then 30 else 31

/-- Split a character list on a separator character. -/
def splitOnChar (c : Char) : List Char → List (List Char)
  | [] => [[]]
  | a :: s =>
    if a = c then [] :: splitOnChar c s
    else
      match splitOnChar c s with
      | [] => [[a]]
      | g :: gs => (a :: g) :: gs

/-- Parse a nonempty all-digit chunk. -/
def natOfDigits? (l : List Char) : Option Nat :=
  if l ≠ [] ∧ l.all Char.isDigit then some (digitsVal l) else none

/-- Model of `pd.to_datetime(·, dayfirst=True, errors='coerce')` on one
cell, restricted to slash dates: day-first interpretation (the first
component is the day, the second the month), `none` for an unparseable
value (pandas `NaT`). -/
def dayFirstParse (s : List Char) : Option Stamp :=
  match splitOnChar '/' (pyStrip s) with
  | [d, m, y] =>
    match natOfDigits? d, natOfDigits? m, natOfDigits? y with
    | some dd, some mm, some yy =>
      if 1 ≤ mm ∧ mm ≤ 12 ∧ 1 ≤ dd ∧ dd ≤ daysInMonth yy mm then
        some ⟨yy, mm, dd, 0⟩
      else none
    | _, _, _ => none
  | _ => none

/-- One row of the merged table as far as date handling is concerned:
the raw cells of the candidate date columns (meaningful only when the
corresponding column exists) and a payload distinguishing rows. -/
structure DRow where
  data : List Char
  esec : List Char
  payload : ℚ
deriving DecidableEq

/-- Model of `app.py` lines 89–104: build `Data_dt` from the `Data`
column when present, else from `Data_esecuzione`, else from the run
timestamp `now`; normalize to midnight; drop the rows whose date failed
to parse (`dropna(subset=['Data_dt'])`). -/
def processDates (hasData hasEsec : Bool) (now : Stamp) (rows : List DRow) :
    List (DRow × Stamp) :=
  if hasData then
    rows.filterMap (fun r => (dayFirstParse r.data).map (fun t => (r, normalizeStamp t)))
  else if hasEsec then
    rows.filterMap (fun r => (dayFirstParse r.esec).map (fun t => (r, normalizeStamp t)))
  else
    rows.map (fun r => (r, normalizeStamp now))

/-! ## Column reconciliation (`app.py` lines 61–80) -/

/-- The alias→canonical rename map (`app.py` lines 61–66), applied to one
column name (exact, case-sensitive match). -/
def rename1 (n : List Char) : List Char :=
  if n = cs "Sensation_Prezzo" then cs "Price"
  else if n = cs "Sensation_Posizione" then cs "Rank"
  else if n = cs "Codice" then cs "Sku"
  else if n = cs "id" then cs "Sku"
  else n

/-- A column of a raw table: header name and cell values. -/
structure Col where
  name : List Char
  vals : List CellValue
deriving DecidableEq

/-- Whether a table has a column of the given name. -/
def hasCol (t : List Col) (n : List Char) : Bool :=
  t.any (fun c => c.name == n)

/-- `if name not in df.columns: df[name] = const`: append a constant
column when absent. -/
def addIfMissing (t : List Col) (n : List Char) (v : List CellValue) : List Col :=
  if hasCol t n then t else t ++ [⟨n, v⟩]

/-- The rename pass followed by `df.columns.str.strip()` (`app.py`
lines 66–71). -/
def mappedCols (t : List Col) : List Col :=
  (t.map (fun c => { c with name := rename1 c.name })).map
    (fun c => { c with name := pyStrip c.name })

/-- Model of `app.py` lines 61–77 on the price table: rename aliases,
strip whitespace from the column names, then synthesize the missing ones
among `Price` (0.0), `Rank` (99) and `Comp_1_Prezzo` (0.0).  `nrows` is
the row count the synthesized constant column is broadcast to. -/
def reconcile (nrows : Nat) (t : List Col) : List Col :=
  addIfMissing
    (addIfMissing
      (addIfMissing (mappedCols t) (cs "Price") (List.replicate nrows (.num 0)))
      (cs "Rank") (List.replicate nrows (.num 99)))
    (cs "Comp_1_Prezzo") (List.replicate nrows (.num 0))

/-! ## Price index -/

/-- Modelled from the spec: the price index `own_price / competitor_price
× 100` with the defined neutral value `100` substituted when the
competitor price is zero (no price-index computation appears in the
source files provided; the definition follows §4.3's failure/edge policy
and the glossary). -/
def priceIndex (own comp : ℚ) : ℚ :=
  if comp = 0 then 100 else own / comp * 100

/-! ## Bulk AI clustering (`app.py` lines 110–128) -/

/-- What `ai_clustering_bulk` needs of its input frame: the column names
and the number of data rows (`df.empty` iff `rows = 0`). -/
structure AIn where
  cols : List (List Char)
  rows : Nat
deriving DecidableEq

/-- One decoded classification row (`Sku`/`Categoria`). -/
structure ClusterRow where
  sku : List Char
  categoria : List Char
deriving DecidableEq

/-- Model of `ai_clustering_bulk` (`app.py` lines 110–128).  The
generative call together with the JSON decoding of its response is
abstracted by `ai`: `Except.error` models any exception raised inside
the `try` block (a failed call, or `json.loads` on a malformed
response), `Except.ok rows` a successfully decoded classification.  The
steps before the `try` — in particular `sort_values(by='Entrate')` — are
outside the handler, and raise a `KeyError` (modelled as
`Except.error`) when the input has rows but no `Entrate` column. -/
def ai_clustering_bulk (df : AIn) (ai : Except Unit (List ClusterRow)) :
    Except Unit (List ClusterRow) :=
  if df.rows = 0 then .ok []
  else if ¬ df.cols.contains (cs "Entrate") then .error ()
  else
    match ai with
    | .error _ => .ok []
    | .ok rows => .ok rows

example : clean_currency (.str (cs "1.234,56 €")) = 1234.56 := by with_unfolding_all rfl
example : clean_currency (.str (cs "1,234.56")) = 1234.56 := by with_unfolding_all rfl
example : clean_currency (.str (cs "")) = 0 := by with_unfolding_all rfl
example : clean_currency (.str (cs "abc")) = 0 := by with_unfolding_all rfl
example : clean_currency (.str (cs "£12.50")) = 0 := by with_unfolding_all rfl
example : clean_currency (.str (cs " 12,50 $ ")) = 12.5 := by with_unfolding_all rfl

/-! ## Merge lemmas -/

theorem matchRevRows_proj {m : MergedRow} {p : PriceRow} {R : List RevRow}
    (h : m ∈ matchRevRows p R) :
    m.sku = p.sku ∧ m.pdate = p.pdate ∧ m.price = p.price := by
  unfold matchRevRows at h
  cases hf : R.filter (fun x => x.sku == p.sku) with
  | nil => rw [hf] at h; simp at h; subst h; exact ⟨rfl, rfl, rfl⟩
  | cons a as =>
    rw [hf] at h
    simp only [List.mem_map] at h
    obtain ⟨x, -, hx⟩ := h
    subst hx; exact ⟨rfl, rfl, rfl⟩

theorem matchRevRows_ne_nil (p : PriceRow) (R : List RevRow) :
    matchRevRows p R ≠ [] := by
  unfold matchRevRows
  cases hf : R.filter (fun x => x.sku == p.sku) <;> simp

theorem mem_merge_on_sku {m : MergedRow} {P : List PriceRow} {R : List RevRow} :
    m ∈ merge_on_sku P R ↔ ∃ p ∈ P, m ∈ matchRevRows p R := by
  simp only [merge_on_sku, List.mem_flatten, List.mem_map]
  constructor
  · rintro ⟨l, ⟨p, hp, rfl⟩, hm⟩; exact ⟨p, hp, hm⟩
  · rintro ⟨p, hp, hm⟩; exact ⟨matchRevRows p R, ⟨p, hp, rfl⟩, hm⟩

theorem matchRevRows_of_no_match {p : PriceRow} {R : List RevRow}
    (h : R.filter (fun x => x.sku == p.sku) = []) :
    matchRevRows p R = [⟨p.sku, p.pdate, p.price, 0, 0⟩] := by
  unfold matchRevRows; rw [h]

/-- C4 (counterexample): with a revenue source that carries a date
column, the code's merge (`on='Sku'` only) differs from the spec's
same-day merge — the revenue row of day 1 also attaches to the price row
of day 2. -/
theorem C4_counterexample :
    merge_on_sku [⟨cs "A", 1, 10⟩, ⟨cs "A", 2, 9⟩] [⟨cs "A", some 1, 50, 5⟩] ≠
      specMergeSkuDate [⟨cs "A", 1, 10⟩, ⟨cs "A", 2, 9⟩] [⟨cs "A", some 1, 50, 5⟩] := by
  with_unfolding_all decide

/-- C4 (amended): the merge joins on `sku` alone even when the revenue
source carries a date column — its output is invariant under any
rewriting of the revenue dates, so a revenue row attaches to every price
row of its sku regardless of the recorded days. -/
theorem C4_merge_joins_on_sku_alone (P : List PriceRow) (R : List RevRow)
    (f : Option Int → Option Int) :
    merge_on_sku P (R.map (fun r => { r with rdate := f r.rdate })) = merge_on_sku P R := by
  unfold merge_on_sku
  congr 1
  apply List.map_congr_left
  intro p _
  unfold matchRevRows
  have hfil : (R.map (fun r => { r with rdate := f r.rdate })).filter
      (fun x => x.sku == p.sku) =
      (R.filter (fun x => x.sku == p.sku)).map (fun r => { r with rdate := f r.rdate }) := by
    induction R with
    | nil => rfl
    | cons a as ih =>
      by_cases h : a.sku == p.sku <;> simp [h, ih]
  rw [hfil]
  cases hf : R.filter (fun x => x.sku == p.sku) with
  | nil => rfl
  | cons a as => simp

/-- C5: the price/revenue merge is a left join anchored on the price
table: every price row appears in the output with its fields intact, and
when no revenue row matches its sku it is zero-filled (`Entrate = 0`,
`Vendite = 0`). -/
theorem C5_left_join_completeness (P : List PriceRow) (R : List RevRow)
    (p : PriceRow) (hp : p ∈ P) :
    (∃ m ∈ merge_on_sku P R, m.sku = p.sku ∧ m.pdate = p.pdate ∧ m.price = p.price) ∧
    (R.filter (fun x => x.sku == p.sku) = [] →
      (⟨p.sku, p.pdate, p.price, 0, 0⟩ : MergedRow) ∈ merge_on_sku P R ∧
      ∀ m ∈ merge_on_sku P R, m.sku = p.sku → m.entrate = 0 ∧ m.vendite = 0) := by
  constructor
  · cases hne : matchRevRows p R with
    | nil => exact absurd hne (matchRevRows_ne_nil p R)
    | cons a as =>
      have ha : a ∈ matchRevRows p R := by rw [hne]; exact List.mem_cons_self a as
      exact ⟨a, mem_merge_on_sku.mpr ⟨p, hp, ha⟩, matchRevRows_proj ha⟩
  · intro hempty
    constructor
    · exact mem_merge_on_sku.mpr ⟨p, hp, by rw [matchRevRows_of_no_match hempty]; exact List.mem_singleton.mpr rfl⟩
    · intro m hm hsku
      obtain ⟨p', hp', hm'⟩ := mem_merge_on_sku.mp hm
      have hsku' : m.sku = p'.sku := (matchRevRows_proj hm').1
      have hpp : p'.sku = p.sku := by rw [← hsku', hsku]
      unfold matchRevRows at hm'
      cases hf : R.filter (fun x => x.sku == p'.sku) with
      | nil => rw [hf] at hm'; simp at hm'; subst hm'; exact ⟨rfl, rfl⟩
      | cons a as =>
        exfalso
        have : R.filter (fun x => x.sku == p'.sku) = R.filter (fun x => x.sku == p.sku) := by
          apply List.filter_congr
          intro x _
          rw [hpp]
        rw [this, hempty] at hf
        exact List.noConfusion hf

/-- C5 (witness): concrete instance of the left-join completeness at a
one-row price table with an unmatched sku. -/
theorem C5_witness :
    (⟨cs "A", 1, 10, 0, 0⟩ : MergedRow) ∈
      merge_on_sku [⟨cs "A", 1, 10⟩] [⟨cs "B", none, 50, 5⟩] :=
  ((C5_left_join_completeness [⟨cs "A", 1, 10⟩] [⟨cs "B", none, 50, 5⟩]
      ⟨cs "A", 1, 10⟩ (by with_unfolding_all decide)).2
    (by with_unfolding_all decide)).1

/-! ## Reconciliation -/

/-- C7 (counterexample): a table with no sku-alias column still has no
`Sku` column after reconciliation — identifier columns are not
synthesized with an empty-string default (the later `merge` on `Sku`
then raises, caught only by `load_data`'s outer handler). -/
theorem C7_counterexample :
    hasCol (reconcile 1 [⟨cs "Product", [.str (cs "X")]⟩]) (cs "Sku") = false := by
  with_unfolding_all decide

/-- C7 (amended): after alias renaming and column-name trimming, the
numeric columns required downstream are synthesized when absent —
`Price` filled with 0, `Rank` filled with 99, `Comp_1_Prezzo` filled
with 0 — but identifier columns (`Sku`) are not; for these three columns
reconciliation always succeeds. -/
theorem hasCol_addIfMissing_self (t : List Col) (n : List Char) (v : List CellValue) :
    hasCol (addIfMissing t n v) n = true := by
  unfold addIfMissing
  split <;> simp_all [hasCol, List.any_append]

theorem hasCol_addIfMissing_of (t : List Col) {n m : List Char} (v : List CellValue)
    (h : hasCol t m = true) : hasCol (addIfMissing t n v) m = true := by
  unfold addIfMissing
  split <;> simp_all [hasCol, List.any_append]

theorem mem_addIfMissing_of_absent {t : List Col} {n : List Char} {v : List CellValue}
    (h : hasCol t n = false) : (⟨n, v⟩ : Col) ∈ addIfMissing t n v := by
  unfold addIfMissing
  rw [h]
  simp

theorem mem_addIfMissing_mono {t : List Col} {x : Col} (n : List Char) (v : List CellValue)
    (h : x ∈ t) : x ∈ addIfMissing t n v := by
  unfold addIfMissing
  split
  · exact h
  · exact List.mem_append_left _ h

theorem C7_reconcile_defaults (n : Nat) (t : List Col) :
    hasCol (reconcile n t) (cs "Price") = true ∧
    hasCol (reconcile n t) (cs "Rank") = true ∧
    hasCol (reconcile n t) (cs "Comp_1_Prezzo") = true ∧
    (hasCol (mappedCols t) (cs "Rank") = false →
      (⟨cs "Rank", List.replicate n (.num 99)⟩ : Col) ∈ reconcile n t) := by
  refine ⟨?_, ?_, ?_, fun h => ?_⟩
  · exact hasCol_addIfMissing_of _ _ (hasCol_addIfMissing_of _ _
      (hasCol_addIfMissing_self _ _ _))
  · exact hasCol_addIfMissing_of _ _ (hasCol_addIfMissing_self _ _ _)
  · exact hasCol_addIfMissing_self _ _ _
  · apply mem_addIfMissing_mono
    apply mem_addIfMissing_of_absent
    unfold addIfMissing
    split
    · exact h
    · simp only [hasCol] at h ⊢
      rw [List.any_append, h]
      simp only [List.any_cons, List.any_nil, Bool.false_or, Bool.or_false]
      decide

/-- C7 (witness): a table carrying only an aliased price column gains
canonical `Price` and `Rank` columns, the latter filled with 99. -/
theorem C7_witness :
    hasCol (reconcile 2 [⟨cs "Sensation_Prezzo", [.num 3, .num 4]⟩]) (cs "Rank") = true ∧
    (⟨cs "Rank", List.replicate 2 (.num 99)⟩ : Col) ∈
      reconcile 2 [⟨cs "Sensation_Prezzo", [.num 3, .num 4]⟩] :=
  ⟨(C7_reconcile_defaults 2 [⟨cs "Sensation_Prezzo", [.num 3, .num 4]⟩]).2.1,
   (C7_reconcile_defaults 2 [⟨cs "Sensation_Prezzo", [.num 3, .num 4]⟩]).2.2.2
     (by with_unfolding_all decide)⟩

/-! ## Price index -/

/-- C9: a competitor price of zero yields the defined neutral price
index 100 rather than a division error. -/
theorem C9_price_index_neutral (own : ℚ) : priceIndex own 0 = 100 := by
  simp [priceIndex]

/-! ## Bulk AI clustering -/

/-- C10 (counterexample): the bulk clustering operation can raise — a
nonempty input frame without an `Entrate` column makes the
`sort_values(by='Entrate')` placed before the `try` block raise a
`KeyError`, so the claim that it never raises is false. -/
theorem C10_counterexample :
    ai_clustering_bulk ⟨[cs "Sku"], 1⟩ (.ok []) = .error () := by
  with_unfolding_all rfl

/-- C10 (amended): on an empty input frame the clustering returns an
empty result, and whenever the input has an `Entrate` column the
operation never raises — any failure of the AI call or malformed
response degrades to an empty classification result. -/
theorem C10_clustering_degrades (df : AIn) (ai : Except Unit (List ClusterRow)) :
    (df.rows = 0 → ai_clustering_bulk df ai = .ok []) ∧
    (df.cols.contains (cs "Entrate") = true →
      (∃ out, ai_clustering_bulk df ai = .ok out) ∧
      (∀ e, ai = .error e → ai_clustering_bulk df ai = .ok [])) := by
  constructor
  · intro h; simp [ai_clustering_bulk, h]
  · intro h
    have hmem : cs "Entrate" ∈ df.cols := List.mem_of_elem_eq_true h
    by_cases h0 : df.rows = 0
    · exact ⟨⟨[], by simp [ai_clustering_bulk, h0]⟩,
        fun e _ => by simp [ai_clustering_bulk, h0]⟩
    · constructor
      · cases ai with
        | error e => exact ⟨[], by simp [ai_clustering_bulk, h0, hmem]⟩
        | ok rows => exact ⟨rows, by simp [ai_clustering_bulk, h0, hmem]⟩
      · rintro e rfl
        simp [ai_clustering_bulk, h0, hmem]

/-- C10 (witness): concrete instance — a failed AI call on a two-row
frame with an `Entrate` column yields the empty classification. -/
theorem C10_witness :
    ai_clustering_bulk ⟨[cs "Entrate"], 2⟩ (.error ()) = .ok [] :=
  ((C10_clustering_degrades ⟨[cs "Entrate"], 2⟩ (.error ())).2 (by decide)).2 () rfl

/-! ## Date handling -/

/-- C6: the `Data` column, or failing that `Data_esecuzione`, is parsed
day-first; a row whose date fails to parse is dropped, never kept with a
wrong date; with no candidate column every row is kept and dated with
the (midnight-normalized) run date; every resulting date is normalized
to midnight. -/
theorem C6_date_handling (rows : List DRow) (now : Stamp) (b : Bool) :
    (∀ r ∈ rows, dayFirstParse r.data = none →
      ∀ t, (r, t) ∉ processDates true b now rows) ∧
    (∀ r ∈ rows, ∀ t, dayFirstParse r.data = some t →
      (r, normalizeStamp t) ∈ processDates true b now rows) ∧
    processDates true true now rows = processDates true false now rows ∧
    (∀ r ∈ rows, dayFirstParse r.esec = none →
      ∀ t, (r, t) ∉ processDates false true now rows) ∧
    (∀ r ∈ rows, ∀ t, dayFirstParse r.esec = some t →
      (r, normalizeStamp t) ∈ processDates false true now rows) ∧
    (∀ hd he : Bool, ∀ p ∈ processDates hd he now rows, p.2.secs = 0) ∧
    (processDates false false now rows).length = rows.length ∧
    (∀ p ∈ processDates false false now rows, p.2 = normalizeStamp now) ∧
    dayFirstParse (cs "15/01/2025") = some ⟨2025, 1, 15, 0⟩ := by
  refine ⟨?_, ?_, by simp [processDates], ?_, ?_, ?_, by simp [processDates], ?_, by decide⟩
  · intro r _ hnone t hmem
    simp only [processDates, if_pos, List.mem_filterMap] at hmem
    obtain ⟨a, -, ha⟩ := hmem
    rw [Option.map_eq_some'] at ha
    obtain ⟨u, hu, hau⟩ := ha
    obtain ⟨rfl, -⟩ := Prod.mk.injEq .. ▸ hau
    rw [hnone] at hu
    exact Option.noConfusion hu
  · intro r hr t ht
    simp only [processDates, if_pos, List.mem_filterMap]
    exact ⟨r, hr, by rw [ht]; rfl⟩
  · intro r _ hnone t hmem
    simp only [processDates, Bool.false_eq_true, if_false, if_pos,
      List.mem_filterMap] at hmem
    obtain ⟨a, -, ha⟩ := hmem
    rw [Option.map_eq_some'] at ha
    obtain ⟨u, hu, hau⟩ := ha
    obtain ⟨rfl, -⟩ := Prod.mk.injEq .. ▸ hau
    rw [hnone] at hu
    exact Option.noConfusion hu
  · intro r hr t ht
    simp only [processDates, Bool.false_eq_true, if_false, if_pos, List.mem_filterMap]
    exact ⟨r, hr, by rw [ht]; rfl⟩
  · intro hd he p hp
    cases hd <;> cases he <;>
      simp only [processDates, Bool.false_eq_true, if_false, if_pos,
        List.mem_filterMap, List.mem_map] at hp
    · obtain ⟨a, -, ha⟩ := hp; rw [← ha]; rfl
    · obtain ⟨a, -, ha⟩ := hp
      rw [Option.map_eq_some'] at ha
      obtain ⟨u, -, hau⟩ := ha
      rw [← hau]; rfl
    · obtain ⟨a, -, ha⟩ := hp
      rw [Option.map_eq_some'] at ha
      obtain ⟨u, -, hau⟩ := ha
      rw [← hau]; rfl
    · obtain ⟨a, -, ha⟩ := hp
      rw [Option.map_eq_some'] at ha
      obtain ⟨u, -, hau⟩ := ha
      rw [← hau]; rfl
  · intro p hp
    simp only [processDates, Bool.false_eq_true, if_false, List.mem_map] at hp
    obtain ⟨a, -, ha⟩ := hp
    rw [← ha]

/-- C6 (witness): a concrete row with the date cell `"15/01/2025"` is
kept and dated 2025-01-15 (day-first), with the time at midnight. -/
theorem C6_witness :
    ((⟨cs "15/01/2025", cs "", 0⟩ : DRow), (⟨2025, 1, 15, 0⟩ : Stamp)) ∈
      processDates true false ⟨2030, 6, 1, 3600⟩ [⟨cs "15/01/2025", cs "", 0⟩] :=
  (C6_date_handling [⟨cs "15/01/2025", cs "", 0⟩] ⟨2030, 6, 1, 3600⟩ false).2.1
    ⟨cs "15/01/2025", cs "", 0⟩ (List.mem_singleton.mpr rfl)
    ⟨2025, 1, 15, 0⟩ (by decide)

/-! ## The currency parser follows the spec's rule -/

/-- C1: `clean_currency` returns the value of the spec's disambiguation
rule — null/blank input gives 0.0, numeric input is passed through, and
on the symbol-stripped string the `,`/`.` convention is resolved exactly
as the spec states, any parse failure giving 0.0; including the four
concrete examples. -/
theorem C1_currency_rule :
    clean_currency .null = 0 ∧
    (∀ q, clean_currency (.num q) = q) ∧
    (∀ s, pyStrip s = [] → clean_currency (.str s) = 0) ∧
    (∀ s, pyStrip s ≠ [] →
      clean_currency (.str s) =
        ruleSpecParse (pyStrip (removeChar '$' (removeChar '€' s)))) ∧
    clean_currency (.str (cs "1.234,56 €")) = 1234.56 ∧
    clean_currency (.str (cs "1,234.56")) = 1234.56 ∧
    clean_currency (.str (cs "")) = 0 ∧
    clean_currency (.str (cs "abc")) = 0 := by
  refine ⟨rfl, fun q => rfl, ?_, ?_, by with_unfolding_all rfl, by with_unfolding_all rfl,
    by with_unfolding_all rfl, by with_unfolding_all rfl⟩
  · intro s h
    simp [clean_currency, h]
  · intro s h
    simp only [clean_currency, if_neg h, ruleSpecParse]
    split_ifs <;> rfl

/-- C1 (witness): the blank-input and general-rule clauses at concrete
inputs. -/
theorem C1_witness :
    clean_currency (.str (cs "  ")) = 0 ∧
    clean_currency (.str (cs "7,5 €")) =
      ruleSpecParse (pyStrip (removeChar '$' (removeChar '€' (cs "7,5 €")))) :=
  ⟨C1_currency_rule.2.2.1 (cs "  ") (by decide),
   C1_currency_rule.2.2.2.1 (cs "7,5 €") (by decide)⟩

/-! ## String lemmas -/

theorem dropWhile_idem (p : Char → Bool) (l : List Char) :
    (l.dropWhile p).dropWhile p = l.dropWhile p := by
  induction l with
  | nil => rfl
  | cons x xs ih =>
    by_cases h : p x
    · simp [List.dropWhile_cons, h, ih]
    · simp [List.dropWhile_cons, h]

theorem dropWhile_eq_self_of_all {p : Char → Bool} {l : List Char}
    (h : ∀ c ∈ l, p c = false) : l.dropWhile p = l := by
  cases l with
  | nil => rfl
  | cons x xs => simp [List.dropWhile_cons, h x (List.mem_cons_self x xs)]

theorem mem_dropWhile_of_mem {p : Char → Bool} {l : List Char} {c : Char}
    (hc : c ∈ l) (hp : p c = false) : c ∈ l.dropWhile p := by
  induction l with
  | nil => exact absurd hc (List.not_mem_nil c)
  | cons x xs ih =>
    by_cases hx : p x
    · rw [List.dropWhile_cons, if_pos hx]
      rcases List.mem_cons.mp hc with rfl | hc'
      · rw [hx] at hp; exact Bool.noConfusion hp
      · exact ih hc'
    · rw [List.dropWhile_cons, if_neg hx]; exact hc

theorem dropWhile_eq_nil_of_all {p : Char → Bool} {l : List Char}
    (h : ∀ c ∈ l, p c = true) : l.dropWhile p = [] := by
  induction l with
  | nil => rfl
  | cons x xs ih =>
    rw [List.dropWhile_cons, if_pos (h x (List.mem_cons_self x xs))]
    exact ih (fun c hc => h c (List.mem_cons_of_mem x hc))

theorem mem_pyStrip {s : List Char} {c : Char} (h : c ∈ pyStrip s) : c ∈ s := by
  unfold pyStrip at h
  rw [List.mem_reverse] at h
  have h1 := (List.dropWhile_sublist _).mem h
  rw [List.mem_reverse] at h1
  exact (List.dropWhile_sublist _).mem h1

theorem pyStrip_eq_self_of_all {s : List Char}
    (h : ∀ c ∈ s, wsChar c = false) : pyStrip s = s := by
  unfold pyStrip
  rw [dropWhile_eq_self_of_all h, dropWhile_eq_self_of_all
    (fun c hc => h c (List.mem_reverse.mp hc)), List.reverse_reverse]

theorem pyStrip_eq_nil_iff {s : List Char} :
    pyStrip s = [] ↔ ∀ c ∈ s, wsChar c = true := by
  constructor
  · intro h c hc
    by_contra hcw
    have hcw' : wsChar c = false := Bool.not_eq_true _ ▸ hcw
    have h1 : c ∈ s.dropWhile wsChar := mem_dropWhile_of_mem hc hcw'
    have h2 : c ∈ (s.dropWhile wsChar).reverse.dropWhile wsChar :=
      mem_dropWhile_of_mem (List.mem_reverse.mpr h1) hcw'
    have h3 : c ∈ pyStrip s := by unfold pyStrip; rw [List.mem_reverse]; exact h2
    rw [h] at h3
    exact absurd h3 (List.not_mem_nil c)
  · intro h
    unfold pyStrip
    rw [dropWhile_eq_nil_of_all h]
    rfl

theorem head_dropWhile_false {p : Char → Bool} {l : List Char} {a : Char} {t : List Char}
    (h : l.dropWhile p = a :: t) : p a = false := by
  induction l with
  | nil => exact List.noConfusion h
  | cons x xs ih =>
    by_cases hx : p x
    · rw [List.dropWhile_cons, if_pos hx] at h; exact ih h
    · rw [List.dropWhile_cons, if_neg hx] at h
      obtain ⟨rfl, -⟩ := List.cons.injEq .. ▸ h
      exact Bool.not_eq_true _ ▸ hx

theorem dropWhile_cons_false {p : Char → Bool} {a : Char} {t : List Char}
    (h : p a = false) : (a :: t).dropWhile p = a :: t := by
  simp [List.dropWhile_cons, h]

theorem pyStrip_idem (s : List Char) : pyStrip (pyStrip s) = pyStrip s := by
  show pyStrip (((s.dropWhile wsChar).reverse.dropWhile wsChar).reverse) = _
  set u := s.dropWhile wsChar with hu
  set w := u.reverse.dropWhile wsChar with hw
  -- front pass on the already-stripped string is the identity:
  -- the head of `w.reverse` is the head of `u`, which fails `wsChar`
  have hdw : w.reverse.dropWhile wsChar = w.reverse := by
    cases hwr : w.reverse with
    | nil => rfl
    | cons a t =>
      have hpre : w.reverse <+: u := by
        have h1 : w <:+ u.reverse := hw ▸ List.dropWhile_suffix _
        have h2 := List.IsSuffix.reverse h1
        rwa [List.reverse_reverse] at h2
      rw [hwr] at hpre
      obtain ⟨r, hr⟩ := hpre
      have hua : u = a :: (t ++ r) := by rw [← hr]; rfl
      have hsd : s.dropWhile wsChar = a :: (t ++ r) := hu ▸ hua
      have ha : wsChar a = false := head_dropWhile_false hsd
      exact dropWhile_cons_false ha
  show ((w.reverse.dropWhile wsChar).reverse.dropWhile wsChar).reverse = w.reverse
  rw [hdw, List.reverse_reverse, hw, dropWhile_idem]

theorem removeChar_eq_self {c : Char} {s : List Char} (h : ∀ a ∈ s, a ≠ c) :
    removeChar c s = s :=
  List.filter_eq_self.mpr (fun a ha => by simpa using h a ha)

theorem mem_removeChar {c a : Char} {s : List Char} (h : a ∈ removeChar c s) :
    a ∈ s ∧ a ≠ c := by
  have h1 := List.mem_filter.mp h
  exact ⟨h1.1, by simpa using h1.2⟩

/-! ## Symbol stripping (C8) -/

/-- C8 (counterexample): the code strips only `€` and `$`, not `£`, so
`"£12.50"` parses to `0.0`, not `12.50`. -/
theorem C8_counterexample :
    clean_currency (.str (cs "£12.50")) = 0 ∧ (0 : ℚ) ≠ 12.50 := by
  constructor
  · with_unfolding_all rfl
  · norm_num

/-- C8 (amended): the parser strips the currency symbols `€` and `$` and
surrounding whitespace before numeric interpretation — its result
depends only on the symbol-stripped trimmed string — but `£` is not
stripped, so a pound-denominated string such as `"£12.50"` parses to
`0.0`. -/
theorem C8_symbol_stripping :
    (∀ s : List Char, clean_currency (.str s) =
      clean_currency (.str (pyStrip (removeChar '$' (removeChar '€' s))))) ∧
    clean_currency (.str (cs " 12.50 € ")) = 12.5 ∧
    clean_currency (.str (cs "$12.50")) = 12.5 ∧
    clean_currency (.str (cs "£12.50")) = 0 := by
  refine ⟨?_, by with_unfolding_all rfl, by with_unfolding_all rfl,
    by with_unfolding_all rfl⟩
  intro s
  set t := pyStrip (removeChar '$' (removeChar '€' s)) with ht
  have hsub : ∀ a ∈ t, a ∈ s ∧ a ≠ '€' ∧ a ≠ '$' := by
    intro a ha
    have h1 := mem_pyStrip (ht ▸ ha)
    have h2 := mem_removeChar h1
    have h3 := mem_removeChar h2.1
    exact ⟨h3.1, h3.2, h2.2⟩
  have hrmE : removeChar '€' t = t :=
    removeChar_eq_self (fun a ha => (hsub a ha).2.1)
  have hrmD : removeChar '$' (removeChar '€' t) = t := by
    rw [hrmE]; exact removeChar_eq_self (fun a ha => (hsub a ha).2.2)
  have hps : pyStrip t = t := ht ▸ pyStrip_idem _
  by_cases h0 : pyStrip s = []
  · have hts : t = [] := by
      rw [ht]
      apply pyStrip_eq_nil_iff.mpr
      intro c hc
      have hcs : c ∈ s := (mem_removeChar (mem_removeChar hc).1).1
      exact pyStrip_eq_nil_iff.mp h0 c hcs
    have hrhs : clean_currency (.str ([] : List Char)) = 0 := by with_unfolding_all rfl
    rw [hts, hrhs]
    simp [clean_currency, h0]
  · have htne : ¬ pyStrip t = [] ↔ ¬ t = [] := by rw [hps]
    by_cases h1 : t = []
    · dsimp only [clean_currency]
      rw [if_neg h0, ← ht, h1]
      with_unfolding_all rfl
    · dsimp only [clean_currency]
      rw [if_neg h0, if_neg (htne.mpr h1), ← ht, hrmD, hps]

/-! ## Snapshot lemmas -/

theorem getLast?_cons_of_ne_nil {y : SRow} {l : List SRow} (h : l ≠ []) :
    (y :: l).getLast? = l.getLast? := by
  cases l with
  | nil => exact absurd rfl h
  | cons a as => exact List.getLast?_cons_cons ..

theorem mem_dropDupKeepLast {m : List SRow} {r : SRow}
    (h : r ∈ dropDupKeepLast m) : r ∈ m := by
  induction m with
  | nil => exact absurd h (List.not_mem_nil r)
  | cons x xs ih =>
    unfold dropDupKeepLast at h
    split at h
    · exact List.mem_cons_of_mem x (ih h)
    · rcases List.mem_cons.mp h with rfl | h'
      · exact List.mem_cons_self _ _
      · exact List.mem_cons_of_mem x (ih h')

theorem sku_surv_dropDupKeepLast {m : List SRow} {k : List Char}
    (h : ∃ r ∈ m, r.sku = k) : ∃ r ∈ dropDupKeepLast m, r.sku = k := by
  induction m with
  | nil => obtain ⟨r, hr, -⟩ := h; exact absurd hr (List.not_mem_nil r)
  | cons x xs ih =>
    obtain ⟨r, hr, hrk⟩ := h
    unfold dropDupKeepLast
    split
    · rename_i hany
      rcases List.mem_cons.mp hr with rfl | hr'
      · rw [List.any_eq_true] at hany
        obtain ⟨y, hy, hyx⟩ := hany
        exact ih ⟨y, hy, by rw [beq_iff_eq] at hyx; rw [hyx, hrk]⟩
      · exact ih ⟨r, hr', hrk⟩
    · rename_i hany
      rcases List.mem_cons.mp hr with rfl | hr'
      · exact ⟨r, List.mem_cons_self _ _, hrk⟩
      · obtain ⟨w, hw, hwk⟩ := ih ⟨r, hr', hrk⟩
        exact ⟨w, List.mem_cons_of_mem x hw, hwk⟩

theorem nodup_sku_dropDupKeepLast (m : List SRow) :
    ((dropDupKeepLast m).map (·.sku)).Nodup := by
  induction m with
  | nil => exact List.nodup_nil
  | cons x xs ih =>
    unfold dropDupKeepLast
    split
    · exact ih
    · rename_i hany
      rw [List.map_cons, List.nodup_cons]
      refine ⟨?_, ih⟩
      intro hmem
      rw [List.mem_map] at hmem
      obtain ⟨y, hy, hyx⟩ := hmem
      have hyxs := mem_dropDupKeepLast hy
      have hc : xs.any (fun y => y.sku == x.sku) = true :=
        List.any_eq_true.mpr ⟨y, hyxs, beq_iff_eq.mpr hyx⟩
      simp [hc] at hany

theorem filter_dropDupKeepLast (k : List Char) (m : List SRow) :
    (dropDupKeepLast m).filter (fun x => x.sku == k) =
      match (m.filter (fun x => x.sku == k)).getLast? with
      | none => []
      | some x => [x] := by
  induction m with
  | nil => rfl
  | cons y ys ih =>
    unfold dropDupKeepLast
    split
    · rename_i hany
      rw [List.any_eq_true] at hany
      obtain ⟨w, hw, hwy⟩ := hany
      rw [beq_iff_eq] at hwy
      rw [ih, List.filter_cons]
      by_cases hyk : y.sku == k
      · rw [if_pos hyk]
        have hfne : ys.filter (fun x => x.sku == k) ≠ [] := by
          intro hnil
          have hk := List.filter_eq_nil_iff.mp hnil w hw
          rw [beq_iff_eq] at hyk
          simp [hwy, hyk] at hk
        rw [getLast?_cons_of_ne_nil hfne]
      · rw [if_neg hyk]
    · rename_i hany
      rw [List.filter_cons, List.filter_cons]
      by_cases hyk : y.sku == k
      · rw [if_pos hyk, if_pos hyk]
        have hfe : ys.filter (fun x => x.sku == k) = [] := by
          apply List.filter_eq_nil_iff.mpr
          intro a ha hak
          apply hany
          rw [beq_iff_eq] at hyk hak
          exact List.any_eq_true.mpr ⟨a, ha, beq_iff_eq.mpr (by rw [hak, hyk])⟩
        rw [hfe, ih, hfe]
        rfl
      · rw [if_neg hyk, if_neg hyk]
        exact ih

theorem getLast?_sorted_max {m : List SRow} {r : SRow}
    (hm : m.Sorted (fun a b => a.date ≤ b.date)) (h : m.getLast? = some r) :
    ∀ x ∈ m, x.date ≤ r.date := by
  induction m with
  | nil => exact fun x hx => absurd hx (List.not_mem_nil x)
  | cons y ys ih =>
    rw [List.sorted_cons] at hm
    intro x hx
    by_cases hne : ys = []
    · subst hne
      obtain rfl : y = r :=
        Option.some_inj.mp
          ((show (y :: ([] : List SRow)).getLast? = some y from rfl).symm.trans h)
      rcases List.mem_cons.mp hx with rfl | hx'
      · exact le_refl _
      · exact absurd hx' (List.not_mem_nil x)
    · rw [getLast?_cons_of_ne_nil hne] at h
      have hrm : r ∈ ys := List.mem_of_mem_getLast? h
      rcases List.mem_cons.mp hx with rfl | hx'
      · exact hm.1 r hrm
      · exact ih hm.2 h x hx'

/-- C3 (counterexample): pandas' default sort does not guarantee
stability, so the program admits a snapshot in which the tie on the
maximum date is NOT resolved to the later row in input order — an
admissible sort of the two tied rows keeps the earlier input row. -/
theorem C3_counterexample :
    IsDfLatest [⟨cs "A", 2, 9⟩, ⟨cs "A", 2, 8⟩] [⟨cs "A", 2, 9⟩] ∧
    (([⟨cs "A", 2, 9⟩, ⟨cs "A", 2, 8⟩] : List SRow).filter
        (fun x => x.sku == cs "A" && x.date == (2 : Int))).getLast? =
      some ⟨cs "A", 2, 8⟩ ∧
    (⟨cs "A", 2, 9⟩ : SRow) ≠ ⟨cs "A", 2, 8⟩ := by
  refine ⟨?_, ?_, ?_⟩
  · unfold IsDfLatest IsSortByDate
    exact ⟨[⟨cs "A", 2, 8⟩, ⟨cs "A", 2, 9⟩],
      ⟨List.Perm.swap (⟨cs "A", 2, 9⟩ : SRow) ⟨cs "A", 2, 8⟩ [],
        List.sorted_cons.mpr
          ⟨fun b hb => by rw [List.mem_singleton.mp hb],
            List.sorted_singleton _⟩⟩,
      by with_unfolding_all rfl⟩
  · with_unfolding_all rfl
  · intro hcon
    have h98 : (9 : ℚ) = 8 := congrArg SRow.price hcon
    norm_num at h98

/-- C3 (amended): over every sort the program's `sort_values` may
produce (any date-ascending permutation; the order of rows with equal
dates is implementation-defined), the snapshot has exactly one row per
distinct sku of the input, and each snapshot row is an input row
carrying its sku's maximum observation date; which of several tied
maximum-date rows survives is not specified by the program. -/
theorem C3_snapshot_any_sort (l res : List SRow) (h : IsDfLatest l res) :
    ((res.map (·.sku)).Nodup) ∧
    (∀ k, (∃ r ∈ l, r.sku = k) ↔ ∃ r ∈ res, r.sku = k) ∧
    (∀ r ∈ res, r ∈ l ∧ ∀ x ∈ l, x.sku = r.sku → x.date ≤ r.date) := by
  obtain ⟨l', ⟨hperm, hsort⟩, rfl⟩ := h
  refine ⟨nodup_sku_dropDupKeepLast _, ?_, ?_⟩
  · intro k
    constructor
    · rintro ⟨r, hr, hrk⟩
      exact sku_surv_dropDupKeepLast ⟨r, hperm.mem_iff.mpr hr, hrk⟩
    · rintro ⟨r, hr, hrk⟩
      exact ⟨r, hperm.mem_iff.mp (mem_dropDupKeepLast hr), hrk⟩
  · intro r hr
    have hrl' : r ∈ l' := mem_dropDupKeepLast hr
    refine ⟨hperm.mem_iff.mp hrl', ?_⟩
    have hrf : r ∈ (dropDupKeepLast l').filter (fun x => x.sku == r.sku) :=
      List.mem_filter.mpr ⟨hr, beq_iff_eq.mpr rfl⟩
    rw [filter_dropDupKeepLast] at hrf
    have hlast : (l'.filter (fun x => x.sku == r.sku)).getLast? = some r := by
      cases hgl : (l'.filter (fun x => x.sku == r.sku)).getLast? with
      | none => rw [hgl] at hrf; exact absurd hrf (List.not_mem_nil r)
      | some w =>
        rw [hgl] at hrf
        obtain rfl := List.mem_singleton.mp hrf
        rfl
    have hsfil : (l'.filter (fun x => x.sku == r.sku)).Sorted
        (fun a b => a.date ≤ b.date) :=
      List.Pairwise.sublist (List.filter_sublist _) hsort
    have hmax := getLast?_sorted_max hsfil hlast
    intro x hx hxs
    exact hmax x (List.mem_filter.mpr
      ⟨hperm.mem_iff.mpr hx, beq_iff_eq.mpr hxs⟩)

/-- C3 (witness): a concrete history, an admissible sort of it, and the
resulting snapshot, instantiating the amended theorem. -/
theorem C3_witness :
    ((([⟨cs "B", 1, 7⟩, ⟨cs "A", 2, 8⟩] : List SRow).map (·.sku)).Nodup) ∧
    (∀ x ∈ ([⟨cs "A", 1, 10⟩, ⟨cs "B", 1, 7⟩, ⟨cs "A", 2, 8⟩] : List SRow),
      x.sku = cs "A" → x.date ≤ 2) := by
  have hd : IsDfLatest [⟨cs "A", 1, 10⟩, ⟨cs "B", 1, 7⟩, ⟨cs "A", 2, 8⟩]
      [⟨cs "B", 1, 7⟩, ⟨cs "A", 2, 8⟩] := by
    unfold IsDfLatest IsSortByDate
    exact ⟨[⟨cs "A", 1, 10⟩, ⟨cs "B", 1, 7⟩, ⟨cs "A", 2, 8⟩],
      ⟨List.Perm.refl _, by decide⟩, by with_unfolding_all rfl⟩
  have hth := C3_snapshot_any_sort
    [⟨cs "A", 1, 10⟩, ⟨cs "B", 1, 7⟩, ⟨cs "A", 2, 8⟩]
    [⟨cs "B", 1, 7⟩, ⟨cs "A", 2, 8⟩] hd
  refine ⟨hth.1, ?_⟩
  intro x hx hxs
  exact (hth.2.2 ⟨cs "A", 2, 8⟩ (by with_unfolding_all decide)).2 x hx
    (by rw [hxs])

/-! ## Digit arithmetic -/

theorem foldl_digits_init (l : List Char) (a : Nat) :
    l.foldl (fun a c => 10 * a + charDig c) a = a * 10 ^ l.length + digitsVal l := by
  induction l generalizing a with
  | nil => simp [digitsVal]
  | cons c cl ih =>
    show cl.foldl _ (10 * a + charDig c) = _
    rw [ih (10 * a + charDig c)]
    have h2 : digitsVal (c :: cl) = charDig c * 10 ^ cl.length + digitsVal cl := by
      show cl.foldl _ (10 * 0 + charDig c) = _
      rw [ih (10 * 0 + charDig c)]
      ring
    rw [h2, List.length_cons]
    ring

theorem digitsVal_cons (c : Char) (l : List Char) :
    digitsVal (c :: l) = charDig c * 10 ^ l.length + digitsVal l := by
  show l.foldl _ (10 * 0 + charDig c) = _
  rw [foldl_digits_init]
  ring

theorem digitsVal_append (a b : List Char) :
    digitsVal (a ++ b) = digitsVal a * 10 ^ b.length + digitsVal b := by
  unfold digitsVal
  rw [List.foldl_append]
  exact foldl_digits_init b _

theorem digChar_isDigit (d : Nat) : (digChar d).isDigit = true := by
  rcases d with _|_|_|_|_|_|_|_|_|d <;> rfl

theorem charDig_digChar {d : Nat} (h : d < 10) : charDig (digChar d) = d := by
  interval_cases d <;> decide

theorem natChars_digits (n : Nat) : ∀ c ∈ natChars n, c.isDigit = true := by
  intro c hc
  unfold natChars at hc
  split at hc
  · rw [List.mem_singleton] at hc; subst hc; rfl
  · rw [List.mem_reverse, List.mem_map] at hc
    obtain ⟨d, -, rfl⟩ := hc
    exact digChar_isDigit d

theorem digitsVal_rev_map (L : List Nat) (h : ∀ d ∈ L, d < 10) :
    digitsVal ((L.map digChar).reverse) = Nat.ofDigits 10 L := by
  induction L with
  | nil => rfl
  | cons d L ih =>
    rw [List.map_cons, List.reverse_cons, digitsVal_append, Nat.ofDigits_cons,
      ih (fun x hx => h x (List.mem_cons_of_mem d hx))]
    have hd : charDig (digChar d) = d := charDig_digChar (h d (List.mem_cons_self d L))
    rw [show digitsVal [digChar d] = charDig (digChar d) by
      rw [digitsVal_cons]; simp [digitsVal]]
    rw [hd, List.length_singleton, pow_one]
    ring

theorem digitsVal_natChars (n : Nat) : digitsVal (natChars n) = n := by
  unfold natChars
  split
  · rename_i h; subst h; rfl
  · rw [digitsVal_rev_map _ (fun d hd => Nat.digits_lt_base (by norm_num) hd)]
    exact Nat.ofDigits_digits 10 n

theorem natChars_ne_nil (n : Nat) : natChars n ≠ [] := by
  unfold natChars
  split
  · simp
  · rename_i h
    simp only [ne_eq, List.reverse_eq_nil_iff, List.map_eq_nil_iff]
    exact Nat.digits_ne_nil_iff_ne_zero.mpr h

theorem natChars_length_le {m k : Nat} (hm : m < 10 ^ k) (hk : 1 ≤ k) :
    (natChars m).length ≤ k := by
  unfold natChars
  split
  · simpa using hk
  · rename_i hm0
    rw [List.length_reverse, List.length_map]
    by_contra hgt
    push_neg at hgt
    have h1 : 10 ^ (Nat.digits 10 m).length ≤ 10 * m :=
      Nat.base_pow_length_digits_le 10 m (by norm_num) hm0
    have h2 : 10 ^ (k + 1) ≤ 10 ^ (Nat.digits 10 m).length :=
      Nat.pow_le_pow_right (by norm_num) hgt
    have h3 : 10 ^ (k + 1) ≤ 10 * m := le_trans h2 h1
    rw [pow_succ] at h3
    omega

theorem digitsVal_replicate_zero (j : Nat) :
    digitsVal (List.replicate j '0') = 0 := by
  induction j with
  | zero => rfl
  | succ j ih =>
    rw [List.replicate_succ, digitsVal_cons, ih]
    rw [show charDig '0' = 0 from rfl]
    simp

theorem digitsVal_padZeros (k : Nat) (l : List Char) :
    digitsVal (padZeros k l) = digitsVal l := by
  unfold padZeros
  rw [digitsVal_append, digitsVal_replicate_zero]
  simp

theorem length_padZeros {k : Nat} {l : List Char} (h : l.length ≤ k) :
    (padZeros k l).length = k := by
  unfold padZeros
  rw [List.length_append, List.length_replicate]
  omega

theorem padZeros_digits {k : Nat} {l : List Char} (h : ∀ c ∈ l, c.isDigit = true) :
    ∀ c ∈ padZeros k l, c.isDigit = true := by
  intro c hc
  unfold padZeros at hc
  rcases List.mem_append.mp hc with h1 | h2
  · rw [List.eq_of_mem_replicate h1]; rfl
  · exact h c h2

theorem stripZerosR_val (l : List Char) :
    (digitsVal (stripZerosR l) : ℚ) / 10 ^ (stripZerosR l).length =
      (digitsVal l : ℚ) / 10 ^ l.length := by
  have key : ∀ L : List Char,
      (digitsVal ((L.dropWhile (fun c => c = '0')).reverse) : ℚ) /
          10 ^ ((L.dropWhile (fun c => c = '0')).reverse).length =
        (digitsVal L.reverse : ℚ) / 10 ^ L.reverse.length := by
    intro L
    induction L with
    | nil => rfl
    | cons c L ih =>
      by_cases hc : c = '0'
      · rw [List.dropWhile_cons, if_pos (by simp [hc]), ih, List.reverse_cons,
          digitsVal_append, List.length_append]
        subst hc
        rw [show digitsVal ['0'] = 0 by decide, List.length_singleton, pow_one]
        push_cast
        have hne : ((10 : ℚ) ^ L.reverse.length) ≠ 0 := by positivity
        field_simp
        ring
      · rw [List.dropWhile_cons, if_neg (by simp [hc])]
  have h2 := key l.reverse
  rw [List.reverse_reverse] at h2
  exact h2

theorem stripZerosR_digits {l : List Char} (h : ∀ c ∈ l, c.isDigit = true) :
    ∀ c ∈ stripZerosR l, c.isDigit = true := by
  intro c hc
  apply h
  unfold stripZerosR at hc
  rw [List.mem_reverse] at hc
  have h1 := (List.dropWhile_sublist _).mem hc
  rwa [List.mem_reverse] at h1

/-! ## Decimal rationals -/

theorem dvd_ten_pow_self : ∀ d : Nat, (∃ k, d ∣ 10 ^ k) → d ∣ 10 ^ d := by
  intro d
  induction d using Nat.strong_induction_on with
  | _ d ih =>
    rintro ⟨k, hk⟩
    rcases Nat.eq_zero_or_pos d with rfl | hd1
    · have h10 : 0 < 10 ^ k := pow_pos (by norm_num) k
      have h0 := Nat.eq_zero_of_zero_dvd hk
      omega
    rcases Nat.lt_or_ge d 2 with hd2 | hd2
    · have hd : d = 1 := by omega
      subst hd
      exact one_dvd _
    by_cases h2 : 2 ∣ d
    · obtain ⟨e, rfl⟩ := h2
      have he1 : 1 ≤ e := by omega
      have helt : e < 2 * e := by omega
      have hedvd : e ∣ 10 ^ k := dvd_trans (Dvd.intro_left 2 rfl) hk
      have hee : e ∣ 10 ^ e := ih e helt ⟨k, hedvd⟩
      have hde : 2 * e ∣ 10 * 10 ^ e := mul_dvd_mul (by norm_num) hee
      rw [show (10 : ℕ) * 10 ^ e = 10 ^ (e + 1) by rw [pow_succ]; ring] at hde
      exact dvd_trans hde (pow_dvd_pow 10 (by omega))
    · by_cases h5 : 5 ∣ d
      · obtain ⟨e, rfl⟩ := h5
        have he1 : 1 ≤ e := by omega
        have helt : e < 5 * e := by omega
        have hedvd : e ∣ 10 ^ k := dvd_trans (Dvd.intro_left 5 rfl) hk
        have hee : e ∣ 10 ^ e := ih e helt ⟨k, hedvd⟩
        have hde : 5 * e ∣ 10 * 10 ^ e := mul_dvd_mul (by norm_num) hee
        rw [show (10 : ℕ) * 10 ^ e = 10 ^ (e + 1) by rw [pow_succ]; ring] at hde
        exact dvd_trans hde (pow_dvd_pow 10 (by omega))
      · exfalso
        have hc2 : Nat.Coprime d 2 :=
          ((Nat.Prime.coprime_iff_not_dvd Nat.prime_two).mpr h2).symm
        have hc5 : Nat.Coprime d 5 :=
          ((Nat.Prime.coprime_iff_not_dvd Nat.prime_five).mpr h5).symm
        have hc10 : Nat.Coprime d 10 := by
          rw [show (10 : ℕ) = 2 * 5 by norm_num]
          exact Nat.Coprime.mul_right hc2 hc5
        have hck : Nat.Coprime d (10 ^ k) := hc10.pow_right k
        have hd1' : d = 1 := Nat.Coprime.eq_one_of_dvd hck hk
        omega

theorem den_dvd_ten_pow_den {q : ℚ} (h : DecimalRat q) : q.den ∣ 10 ^ q.den := by
  obtain ⟨k, z, hz⟩ := h
  apply dvd_ten_pow_self
  refine ⟨k, ?_⟩
  have h10 : ((10 : ℚ) ^ k) ≠ 0 := by positivity
  have hq : q = (z : ℚ) / ((10 : ℚ) ^ k) := by
    rw [eq_div_iff h10]
    exact hz
  have h2 : q = Rat.divInt z ((10 : ℤ) ^ k) := by
    rw [Rat.divInt_eq_div]
    push_cast
    exact hq
  have h3 := Rat.den_dvd z ((10 : ℤ) ^ k)
  rw [← h2] at h3
  have h4 : (q.den : ℤ) ∣ (((10 : ℕ) ^ k : ℕ) : ℤ) := by push_cast; exact h3
  exact_mod_cast h4

theorem exists_int_of_den_dvd {q : ℚ} {k : Nat} (h : q.den ∣ 10 ^ k) :
    ∃ z : ℤ, q * 10 ^ k = (z : ℚ) := by
  obtain ⟨c, hc⟩ := h
  refine ⟨q.num * c, ?_⟩
  have h1 : ((10 : ℚ)) ^ k = ((10 ^ k : ℕ) : ℚ) := by push_cast; ring
  rw [h1, hc]
  push_cast
  rw [← mul_assoc, Rat.mul_den_eq_num]

theorem mkRat_tenpow_decimal (a : ℤ) (L : Nat) : DecimalRat (mkRat a (10 ^ L)) := by
  refine ⟨L, a, ?_⟩
  rw [Rat.mkRat_eq_div]
  have h0 : ((10 : ℚ)) ^ L ≠ 0 := by positivity
  push_cast
  field_simp

theorem mkVal_decimal (neg : Bool) (ip fp : List Char) (e : Int) :
    DecimalRat (mkVal neg ip fp e) := by
  unfold mkVal
  dsimp only
  split <;> apply mkRat_tenpow_decimal

theorem parseExpPartU_decimal {neg : Bool} {ip fp r : List Char} {q : ℚ}
    (h : parseExpPartU neg ip fp r = some q) : DecimalRat q := by
  cases r with
  | nil =>
    obtain rfl := Option.some_inj.mp h
    exact mkVal_decimal ..
  | cons c rr =>
    have h' : (if c = 'e' ∨ c = 'E' then
        (if (takeDigitsU (splitSign rr).2).1 = [] ∨ (takeDigitsU (splitSign rr).2).2 ≠ [] then
          none
        else some (mkVal neg ip fp
          (if (splitSign rr).1 then -(digitsVal (takeDigitsU (splitSign rr).2).1 : Int)
           else (digitsVal (takeDigitsU (splitSign rr).2).1 : Int))))
      else none) = some q := h
    split at h'
    · split at h'
      · exact Option.noConfusion h'
      · obtain rfl := Option.some_inj.mp h'
        exact mkVal_decimal ..
    · exact Option.noConfusion h'

theorem pyFloatExt?_fin_decimal {s : List Char} {q : ℚ}
    (h : pyFloatExt? s = some (.fin q)) : DecimalRat q := by
  unfold pyFloatExt? at h
  dsimp only at h
  cases hd2 : (takeDigitsU (splitSign (pyStrip s)).2).2 with
  | nil =>
    rw [hd2] at h
    dsimp only at h
    split at h
    · exact Option.noConfusion h
    · obtain ⟨a, ha, hfa⟩ := Option.map_eq_some'.mp h
      obtain rfl : a = q := by injection hfa
      exact parseExpPartU_decimal ha
  | cons c r2 =>
    rw [hd2] at h
    dsimp only at h
    split at h
    · split at h
      · exact Option.noConfusion h
      · obtain ⟨a, ha, hfa⟩ := Option.map_eq_some'.mp h
        obtain rfl : a = q := by injection hfa
        exact parseExpPartU_decimal ha
    · split at h
      · split at h
        · exact PyFloat.noConfusion (Option.some_inj.mp h)
        · split at h
          · exact PyFloat.noConfusion (Option.some_inj.mp h)
          · exact Option.noConfusion h
      · obtain ⟨a, ha, hfa⟩ := Option.map_eq_some'.mp h
        obtain rfl : a = q := by injection hfa
        exact parseExpPartU_decimal ha

theorem clean_currency_str_fin_decimal (s : List Char) (q : ℚ)
    (h : clean_currency_str s = .fin q) : DecimalRat q := by
  have h0 : DecimalRat 0 := ⟨0, 0, by simp⟩
  unfold clean_currency_str at h
  dsimp only at h
  split at h
  · injection h with h1
    exact h1 ▸ h0
  · have hopt : ∀ o : Option PyFloat,
        (∀ r, o = some (.fin r) → DecimalRat r) →
        o.getD (.fin 0) = .fin q → DecimalRat q := by
      intro o ho hg
      cases o with
      | none =>
        injection (show PyFloat.fin 0 = PyFloat.fin q from hg) with h1
        exact h1 ▸ h0
      | some v =>
        have hv : v = .fin q := hg
        exact ho q (by rw [← hv])
    refine hopt _ ?_ h
    intro r hr
    split at hr
    · split at hr <;> exact pyFloatExt?_fin_decimal hr
    · split at hr <;> exact pyFloatExt?_fin_decimal hr

/-! ## Parsing the printed float back -/

theorem isDigit_not_ws {c : Char} (h : c.isDigit = true) : wsChar c = false := by
  rw [Bool.eq_false_iff]
  intro hws
  simp only [wsChar, decide_eq_true_eq] at hws
  rcases hws with rfl | rfl | rfl | rfl | rfl | rfl <;> exact absurd h (by decide)

theorem isDigit_ne {c x : Char} (h : c.isDigit = true) (hx : x.isDigit = false) :
    c ≠ x := fun he => by subst he; rw [h] at hx; exact Bool.noConfusion hx

theorem takeDigitsU_nondigit {c : Char} (r : List Char) (h : c.isDigit = false) :
    takeDigitsU (c :: r) = ([], c :: r) := by
  cases r with
  | nil => simp [takeDigitsU, h]
  | cons b r2 => simp [takeDigitsU, h]

theorem takeDigitsU_single {c : Char} (h : c.isDigit = true) :
    takeDigitsU [c] = ([c], []) := by
  simp [takeDigitsU, h]

theorem takeDigitsU_cons_cons {c b : Char} (r2 : List Char)
    (hc : c.isDigit = true) (hb : b ≠ '_') :
    takeDigitsU (c :: b :: r2) =
      ((c :: (takeDigitsU (b :: r2)).1), (takeDigitsU (b :: r2)).2) := by
  simp [takeDigitsU, hc, hb]

theorem takeDigitsU_stop {r : List Char}
    (hr : ∀ c, r.head? = some c → c.isDigit = false) :
    takeDigitsU r = ([], r) := by
  cases r with
  | nil => rfl
  | cons c r' => exact takeDigitsU_nondigit r' (hr c rfl)

theorem takeDigitsU_append {r : List Char}
    (hr : ∀ c, r.head? = some c → c.isDigit = false ∧ c ≠ '_') :
    ∀ A : List Char, (∀ c ∈ A, c.isDigit = true) →
      takeDigitsU (A ++ r) = (A, r) := by
  intro A
  induction A with
  | nil =>
    intro _
    exact takeDigitsU_stop (fun c hc => (hr c hc).1)
  | cons a A' ih =>
    intro hA
    have ha : a.isDigit = true := hA a (List.mem_cons_self a A')
    have hA' : ∀ c ∈ A', c.isDigit = true :=
      fun c hc => hA c (List.mem_cons_of_mem a hc)
    cases A' with
    | nil =>
      cases r with
      | nil => exact takeDigitsU_single ha
      | cons b r' =>
        have hb := hr b rfl
        show takeDigitsU (a :: b :: r') = ([a], b :: r')
        rw [takeDigitsU_cons_cons r' ha hb.2, takeDigitsU_nondigit r' hb.1]
    | cons a2 A'' =>
      have ha2 : a2.isDigit = true := hA' a2 (List.mem_cons_self a2 A'')
      have hne : a2 ≠ '_' := isDigit_ne ha2 (by decide)
      show takeDigitsU (a :: a2 :: (A'' ++ r)) = (a :: a2 :: A'', r)
      rw [takeDigitsU_cons_cons (A'' ++ r) ha hne]
      have ih2 : takeDigitsU (a2 :: (A'' ++ r)) = (a2 :: A'', r) := ih hA'
      rw [ih2]

theorem pyStrOfFloat_chars (q : ℚ) :
    ∀ c ∈ pyStrOfFloat q, c = '-' ∨ c = '.' ∨ c.isDigit = true := by
  intro c hc
  unfold pyStrOfFloat at hc
  dsimp only at hc
  rw [List.mem_append, List.mem_append] at hc
  rcases hc with (hs | hi) | hf
  · left
    split at hs
    · exact List.mem_singleton.mp hs
    · exact absurd hs (List.not_mem_nil c)
  · right; right
    exact natChars_digits _ c hi
  · rcases List.mem_cons.mp hf with rfl | hf'
    · right; left; rfl
    · right; right
      split at hf'
      · rw [List.mem_singleton.mp hf']; rfl
      · exact stripZerosR_digits (padZeros_digits (natChars_digits _)) c hf'

theorem mkVal_zero (b : Bool) (A B : List Char) :
    mkVal b A B 0 = (if b then (-1 : ℚ) else 1) *
      ((digitsVal A : ℚ) + (digitsVal B : ℚ) / 10 ^ B.length) := by
  unfold mkVal
  dsimp only
  rw [if_pos (le_refl (0 : Int))]
  rw [Rat.mkRat_eq_div]
  have h0 : ((10 : ℚ)) ^ B.length ≠ 0 := by positivity
  cases b <;> push_cast <;> field_simp

theorem pyFloatExt?_print {b : Bool} {A B : List Char}
    (hA : ∀ c ∈ A, c.isDigit = true) (hAne : A ≠ [])
    (hB : ∀ c ∈ B, c.isDigit = true) :
    pyFloatExt? ((if b then ['-'] else []) ++ A ++ '.' :: B) =
      some (.fin (mkVal b A B 0)) := by
  obtain ⟨a, A', rfl⟩ : ∃ a A', A = a :: A' := by
    cases A with
    | nil => exact absurd rfl hAne
    | cons a A' => exact ⟨a, A', rfl⟩
  have had : a.isDigit = true := hA a (List.mem_cons_self a A')
  have hA' : ∀ c ∈ A', c.isDigit = true :=
    fun c hc => hA c (List.mem_cons_of_mem a hc)
  set t : List Char := (if b then ['-'] else []) ++ (a :: A') ++ '.' :: B with htdef
  have hchars : ∀ c ∈ t, c = '-' ∨ c = '.' ∨ c.isDigit = true := by
    intro c hc
    rw [htdef, List.mem_append, List.mem_append] at hc
    rcases hc with (hs | hi) | hf
    · left
      split at hs
      · exact List.mem_singleton.mp hs
      · exact absurd hs (List.not_mem_nil c)
    · right; right; exact hA c hi
    · rcases List.mem_cons.mp hf with rfl | hf'
      · right; left; rfl
      · right; right; exact hB c hf'
  have hnws : ∀ c ∈ t, wsChar c = false := by
    intro c hc
    rcases hchars c hc with rfl | rfl | hd
    · rfl
    · rfl
    · exact isDigit_not_ws hd
  have hps : pyStrip t = t := pyStrip_eq_self_of_all hnws
  have hsplit : splitSign t = (b, (a :: A') ++ '.' :: B) := by
    cases b
    · show splitSign ((a :: A') ++ '.' :: B) = _
      rw [List.cons_append]
      unfold splitSign
      dsimp only
      rw [if_neg (isDigit_ne had (by decide)), if_neg (isDigit_ne had (by decide))]
    · show splitSign ('-' :: ((a :: A') ++ '.' :: B)) = _
      unfold splitSign
      dsimp only
      rw [if_pos rfl]
  have hdotr : ∀ c, ('.' :: B).head? = some c → c.isDigit = false ∧ c ≠ '_' := by
    intro c hc
    obtain rfl := Option.some_inj.mp hc
    exact ⟨by decide, by decide⟩
  have htake : takeDigitsU ((a :: A') ++ '.' :: B) = (a :: A', '.' :: B) :=
    takeDigitsU_append hdotr (a :: A') hA
  have htakeB : takeDigitsU B = (B, []) := by
    have h := takeDigitsU_append (r := []) (fun c hc => Option.noConfusion hc) B hB
    simpa using h
  unfold pyFloatExt?
  dsimp only
  rw [hps, hsplit]
  dsimp only
  rw [htake]
  dsimp only
  rw [if_pos rfl, htakeB]
  dsimp only
  rw [if_neg (by simp)]
  rfl

set_option maxHeartbeats 2000000 in
theorem pyStrOfFloat_decomp {q : ℚ} (h : DecimalRat q) :
    ∃ (b : Bool) (A F : List Char),
      pyStrOfFloat q = (if b then ['-'] else []) ++ A ++ '.' :: F ∧
      (∀ c ∈ A, c.isDigit = true) ∧ A ≠ [] ∧
      (∀ c ∈ F, c.isDigit = true) ∧ mkVal b A F 0 = q := by
  have hprint : pyStrOfFloat q =
      (if q < 0 then ['-'] else []) ++
        natChars ((|q| * 10 ^ q.den).num.toNat / 10 ^ q.den) ++
        '.' :: (if stripZerosR (padZeros q.den
                  (natChars ((|q| * 10 ^ q.den).num.toNat % 10 ^ q.den))) = []
                then ['0']
                else stripZerosR (padZeros q.den
                  (natChars ((|q| * 10 ^ q.den).num.toNat % 10 ^ q.den)))) := rfl
  have hdvd : q.den ∣ 10 ^ q.den := den_dvd_ten_pow_den h
  set k := q.den with hk
  have hk1 : 1 ≤ k := Rat.den_pos q
  have habs : |q|.den = k := by
    rw [hk]
    rcases abs_choice q with hq | hq
    · rw [hq]
    · rw [hq]
      rfl
  have hdvd' : |q|.den ∣ 10 ^ k := by rw [habs]; exact hdvd
  obtain ⟨w, hw⟩ := exists_int_of_den_dvd hdvd'
  have hnum : (|q| * 10 ^ k).num = w := by rw [hw]; rfl
  have hposq : (0 : ℚ) ≤ |q| * 10 ^ k := by positivity
  have hw0 : 0 ≤ w := by rw [← hnum]; exact Rat.num_nonneg.mpr hposq
  have hzq : (((|q| * 10 ^ k).num.toNat : ℕ) : ℚ) = |q| * 10 ^ k := by
    rw [hnum, hw]
    exact_mod_cast Int.toNat_of_nonneg hw0
  set z : ℕ := (|q| * 10 ^ k).num.toNat with hzdef
  set A := natChars (z / 10 ^ k) with hA
  set F0 := stripZerosR (padZeros k (natChars (z % 10 ^ k))) with hF0def
  set F := if F0 = [] then ['0'] else F0 with hF
  have hzlt : z % 10 ^ k < 10 ^ k := Nat.mod_lt _ (pow_pos (by norm_num) k)
  have hPlen : (padZeros k (natChars (z % 10 ^ k))).length = k :=
    length_padZeros (natChars_length_le hzlt hk1)
  have hPval : digitsVal (padZeros k (natChars (z % 10 ^ k))) = z % 10 ^ k := by
    rw [digitsVal_padZeros, digitsVal_natChars]
  have hstrip := stripZerosR_val (padZeros k (natChars (z % 10 ^ k)))
  rw [hPlen, hPval, ← hF0def] at hstrip
  have hFval : (digitsVal F : ℚ) / 10 ^ F.length = ((z % 10 ^ k : ℕ) : ℚ) / 10 ^ k := by
    rw [hF]
    by_cases hF0 : F0 = []
    · rw [if_pos hF0]
      rw [hF0] at hstrip
      rw [show digitsVal (['0'] : List Char) = 0 by decide]
      rw [show digitsVal ([] : List Char) = 0 by decide] at hstrip
      simp only [List.length_nil, pow_zero, Nat.cast_zero, zero_div] at hstrip
      rw [← hstrip]
      simp
    · rw [if_neg hF0]
      exact hstrip
  have hAval : (digitsVal A : ℚ) = ((z / 10 ^ k : ℕ) : ℚ) := by
    rw [hA, digitsVal_natChars]
  have h10 : ((10 : ℚ)) ^ k ≠ 0 := by positivity
  have hdm : ((z / 10 ^ k : ℕ) : ℚ) + ((z % 10 ^ k : ℕ) : ℚ) / 10 ^ k =
      (z : ℚ) / 10 ^ k := by
    field_simp
    have hdm0 : z / 10 ^ k * 10 ^ k + z % 10 ^ k = z := by
      rw [mul_comm]
      exact Nat.div_add_mod z (10 ^ k)
    exact_mod_cast hdm0
  have hval : (digitsVal A : ℚ) + (digitsVal F : ℚ) / 10 ^ F.length = |q| := by
    rw [hAval, hFval, hdm, hzq]
    field_simp
  have hAdig : ∀ c ∈ A, c.isDigit = true := by rw [hA]; exact natChars_digits _
  have hAne : A ≠ [] := by rw [hA]; exact natChars_ne_nil _
  have hFdig : ∀ c ∈ F, c.isDigit = true := by
    rw [hF]
    by_cases hF0 : F0 = []
    · rw [if_pos hF0]
      intro c hc
      rw [List.mem_singleton.mp hc]
      rfl
    · rw [if_neg hF0]
      rw [hF0def]
      exact stripZerosR_digits (padZeros_digits (natChars_digits _))
  by_cases hq0 : q < 0
  · refine ⟨true, A, F, ?_, hAdig, hAne, hFdig, ?_⟩
    · rw [hprint, if_pos hq0]
      rfl
    · rw [mkVal_zero, if_pos rfl, hval, abs_of_neg hq0]
      ring
  · refine ⟨false, A, F, ?_, hAdig, hAne, hFdig, ?_⟩
    · rw [hprint, if_neg hq0]
      rfl
    · rw [mkVal_zero, if_neg (by simp), hval, abs_of_nonneg (not_lt.mp hq0)]
      ring

theorem pyFloatExt?_parses {q : ℚ} (h : DecimalRat q) :
    pyFloatExt? (pyStrOfFloat q) = some (.fin q) := by
  obtain ⟨b, A, F, hprint, hAdig, hAne, hFdig, hmk⟩ := pyStrOfFloat_decomp h
  rw [hprint, pyFloatExt?_print hAdig hAne hFdig, hmk]

/-- Feeding the string rendering of a decimal value back through the
string branch of `clean_currency` recovers exactly that value: the
rendering contains only a sign, digits and one dot, so the symbol and
separator rules leave it untouched and the float conversion parses it
exactly. -/
theorem clean_currency_str_of_printed {q : ℚ} (hdec : DecimalRat q) :
    clean_currency_str (pyStrOfFloat q) = .fin q := by
  set t := pyStrOfFloat q with htdef
  have hchars : ∀ c ∈ t, c = '-' ∨ c = '.' ∨ c.isDigit = true :=
    htdef ▸ pyStrOfFloat_chars q
  have hparse : pyFloatExt? t = some (.fin q) := htdef ▸ pyFloatExt?_parses hdec
  have hdot : '.' ∈ t := by
    rw [htdef]
    unfold pyStrOfFloat
    dsimp only
    rw [List.mem_append]
    right
    exact List.mem_cons_self _ _
  have htne : t ≠ [] := List.ne_nil_of_mem hdot
  have hnws : ∀ c ∈ t, wsChar c = false := by
    intro c hc
    rcases hchars c hc with rfl | rfl | hd
    · rfl
    · rfl
    · exact isDigit_not_ws hd
  have hps : pyStrip t = t := pyStrip_eq_self_of_all hnws
  have hnoE : removeChar '€' t = t := by
    apply removeChar_eq_self
    intro a ha
    rcases hchars a ha with rfl | rfl | hd
    · decide
    · decide
    · exact isDigit_ne hd (by decide)
  have hnoD : removeChar '$' t = t := by
    apply removeChar_eq_self
    intro a ha
    rcases hchars a ha with rfl | rfl | hd
    · decide
    · decide
    · exact isDigit_ne hd (by decide)
  have hnoc : t.contains ',' = false := by
    rw [Bool.eq_false_iff]
    intro hcon
    have hmem : ',' ∈ t := List.mem_of_elem_eq_true hcon
    rcases hchars ',' hmem with hcq | hcq | hcq <;> exact absurd hcq (by decide)
  simp only [clean_currency_str]
  rw [if_neg (by rw [hps]; exact htne)]
  rw [hnoE, hnoD, hps]
  rw [if_neg (by rw [hnoc]; simp)]
  rw [if_neg (by rw [hnoc]; simp)]
  rw [hparse]
  rfl

/-- C2 (counterexample): on the string `"nan"` the program's parser
returns NaN, Python `str` renders that output back as `"nan"`, and
re-parsing returns NaN again — but Python `==` between the re-parsed
value and the original output is `False`, because `==` is not reflexive
at NaN.  This refutes unconditional idempotence. -/
theorem C2_counterexample :
    clean_currency_str (cs "nan") = .nan ∧
    pyFloatBeq
      (clean_currency_str (pyStrOfPyFloat (clean_currency_str (cs "nan"))))
      (clean_currency_str (cs "nan")) = false := by
  constructor
  · with_unfolding_all rfl
  · with_unfolding_all rfl

/-- C2 (amended): the currency parser is idempotent in Python's `==`
sense on every input string whose parse is not NaN — re-parsing the
string rendering of the parser's own output compares equal (`==`) to
that output.  (A NaN output also round-trips to NaN, but `==` rejects
it, as the counterexample shows.) -/
theorem C2_idempotent_finite (s : List Char) (h : clean_currency_str s ≠ .nan) :
    pyFloatBeq (clean_currency_str (pyStrOfPyFloat (clean_currency_str s)))
      (clean_currency_str s) = true := by
  cases hv : clean_currency_str s with
  | fin q =>
    have hdec : DecimalRat q := clean_currency_str_fin_decimal s q hv
    show pyFloatBeq (clean_currency_str (pyStrOfFloat q)) (PyFloat.fin q) = true
    rw [clean_currency_str_of_printed hdec]
    show (q == q) = true
    exact beq_self_eq_true q
  | nan => exact absurd hv h
  | inf bb => cases bb <;> with_unfolding_all rfl

/-- C2 (witness): the amended idempotence instantiated at the concrete
input `"7,5"`, whose parse is the finite value 7.5. -/
theorem C2_witness :
    clean_currency_str (cs "7,5") ≠ .nan ∧
    pyFloatBeq
      (clean_currency_str (pyStrOfPyFloat (clean_currency_str (cs "7,5"))))
      (clean_currency_str (cs "7,5")) = true :=
  ⟨by with_unfolding_all decide,
    C2_idempotent_finite (cs "7,5") (by with_unfolding_all decide)⟩

end PriceTower
